import Mathlib

/-!
Verification of the live-subtitles real-time captioning engine against its
specification.  The development shallowly embeds the Rust sources:

* `Stabilizer` and its helpers embed `src/streaming.rs` (`tokenize`,
  `tokens_to_text`, `strip_committed_overlap`, `lcp_len`,
  `Stabilizer::update` / `finalize` / `reset`).
* `SegCfg`, `SegState`, `processFrame` embed the per-frame body of
  `StreamingSegmenter::push_audio`; `FSegState`, `processFrameFinalOnly`
  embed the final-only `Segmenter::push_audio` of `src/audio.rs`.
* `WorkerState`, `maybeSendUpdate`, `handleFinalText` embed the
  transcription worker's `Final` handling in `src/app.rs`.
* `olDecode` / `olEncode` embed `SharedOutputLanguage::get` / `set`.

The voice-activity decision `rms(frame) >= vad_threshold` is f32 arithmetic;
it is embedded as the boolean `voiced` flag carried by each frame, so every
property quantifies over all possible VAD outcomes.  Sample values are an
arbitrary type `α`: none of the verified properties depend on the numeric
content of samples, only on buffer lengths and ordering.
-/

/-- Character-level splitter: accumulates the current run of non-whitespace
characters (in reverse) and cuts at every whitespace character, keeping only
non-empty runs.  This is the semantics of Rust `str::split_whitespace`. -/
def wsTokensAux : List Char → List Char → List String
  | [], acc => if acc = [] then [] else [String.mk acc.reverse]
  | c :: cs, acc =>
    if c.isWhitespace then
      if acc = [] then wsTokensAux cs []
      else String.mk acc.reverse :: wsTokensAux cs []
    else wsTokensAux cs (c :: acc)

/-- Embeds `tokenize` of `src/streaming.rs`: Rust `split_whitespace` yields
the maximal non-empty runs between whitespace characters. -/
def tokenize (s : String) : List String :=
  wsTokensAux s.data []

/-- Embeds `tokens_to_text`: join tokens with single spaces (the `if` for the
empty list in the source agrees with `String.intercalate` on `[]`). -/
def tokensToText (ts : List String) : String :=
  String.intercalate " " ts

/-- Embeds the search loop of `strip_committed_overlap`: the largest
`k ≤ bound` with `committed[committed.len()-k..] == tokens[..k]`, or 0. -/
def findOverlap (committed tokens : List String) : Nat → Nat
  | 0 => 0
  | k + 1 =>
    if committed.drop (committed.length - (k + 1)) = tokens.take (k + 1) then k + 1
    else findOverlap committed tokens k

/-- Embeds `strip_committed_overlap` of `src/streaming.rs`. -/
def stripCommittedOverlap (committed tokens : List String) : List String :=
  if committed = [] ∨ tokens = [] then tokens
  else tokens.drop (findOverlap committed tokens (min committed.length tokens.length))

/-- Embeds `lcp_len` of `src/streaming.rs`. -/
def lcpLen : List String → List String → Nat
  | a :: as, b :: bs => if a = b then lcpLen as bs + 1 else 0
  | _, _ => 0

/-- Embeds the `counts` construction inside `Stabilizer::update`:
`counts[i] = pending_counts.get(i).unwrap_or(0) + 1` for `i < lcp`, else 1. -/
def newCounts (oldCounts : List Nat) (lcp n : Nat) : List Nat :=
  (List.range n).map (fun i => if i < lcp then oldCounts.getD i 0 + 1 else 1)

/-- Embeds the `commit_len` loop of `Stabilizer::update`: length of the
longest prefix of `counts` whose entries are all `≥ R`. -/
def commitLen (R : Nat) : List Nat → Nat
  | [] => 0
  | c :: cs => if R ≤ c then commitLen R cs + 1 else 0

/-- Embeds the `Stabilizer` struct of `src/streaming.rs`. -/
structure Stabilizer where
  stable_required : Nat
  committed : List String
  pending_prev : List String
  pending_counts : List Nat
  deriving Repr, DecidableEq

/-- Embeds `Stabilizer::new` (`stable_required.max(1)`). -/
def Stabilizer.new (r : Nat) : Stabilizer :=
  ⟨max r 1, [], [], []⟩

/-- Embeds `Stabilizer::reset`. -/
def Stabilizer.reset (s : Stabilizer) : Stabilizer :=
  { s with committed := [], pending_prev := [], pending_counts := [] }

/-- The stripped remainder computed at the top of `Stabilizer::update`. -/
def updatePending (s : Stabilizer) (hypothesis : String) : List String :=
  stripCommittedOverlap s.committed (tokenize hypothesis)

/-- The counts vector computed inside `Stabilizer::update`. -/
def updateCounts (s : Stabilizer) (hypothesis : String) : List Nat :=
  newCounts s.pending_counts (lcpLen s.pending_prev (updatePending s hypothesis))
    (updatePending s hypothesis).length

/-- The number of tokens `Stabilizer::update` commits for this hypothesis. -/
def updateCommitLen (s : Stabilizer) (hypothesis : String) : Nat :=
  commitLen s.stable_required (updateCounts s hypothesis)

/-- Embeds `Stabilizer::update` of `src/streaming.rs`.  Returns the new state
together with the `(committed_text, pending_text)` pair the Rust code
returns.  The early return for an empty token list leaves the state
unchanged, exactly as in the source. -/
def Stabilizer.update (s : Stabilizer) (hypothesis : String) :
    Stabilizer × String × String :=
  if tokenize hypothesis = [] then (s, tokensToText s.committed, "")
  else
    let pending := updatePending s hypothesis
    let counts := updateCounts s hypothesis
    let k := commitLen s.stable_required counts
    let committed := s.committed ++ pending.take k
    let pending2 := pending.drop k
    let counts2 := counts.drop k
    ({ s with committed := committed, pending_prev := pending2,
              pending_counts := counts2 },
     tokensToText committed, tokensToText pending2)

/-- Embeds `Stabilizer::finalize`: returns the normalized hypothesis text and
resets all state. -/
def Stabilizer.finalize (s : Stabilizer) (hypothesis : String) :
    Stabilizer × String :=
  (s.reset, tokensToText (tokenize hypothesis))

/-- A sequence of `update` calls (no `reset`/`finalize` between them). -/
def applyUpdates (s : Stabilizer) (hs : List String) : Stabilizer :=
  hs.foldl (fun s h => (s.update h).1) s


/-! ## Streaming segmenter (`StreamingSegmenter` of `src/streaming.rs`)

`push_audio` stashes incoming samples and consumes them one 20 ms frame at a
time; the claims all speak about the state at the end of each frame
iteration, so the embedding works directly on the sequence of frames the
loop extracts.  Each `Frame` carries its samples together with the boolean
outcome `voiced` of the f32 comparison `rms(frame) >= cfg.vad_threshold`. -/

/-- The derived sample/frame counts computed in `StreamingSegmenter::new`
(after f32 rounding); the claims quantify over these. -/
structure SegCfg where
  endSilenceFrames : Nat
  minSpeechSamples : Nat
  maxSegmentSamples : Nat
  preRollSamples : Nat
  asrStepSamples : Nat
  maxWindowSamples : Nat
  deriving Repr, DecidableEq

/-- Embeds the `max_window_samples` derivation of `StreamingSegmenter::new`:
`raw` is the rounded `max_window_s * sample_rate_hz`; a raw value of 0 means
"use the full segment", and the result is clamped to `max_segment_samples`. -/
def deriveMaxWindowSamples (raw maxSegmentSamples : Nat) : Nat :=
  let w := if raw = 0 then maxSegmentSamples else raw
  min w maxSegmentSamples

/-- A 20 ms frame cut from the stash, with the VAD outcome for it. -/
structure Frame (α : Type) where
  samples : List α
  voiced : Bool
  deriving Repr, DecidableEq

/-- Embeds the mutable VAD/segmentation state of `StreamingSegmenter`
(the stash bookkeeping is not part of it: frames are already cut). -/
structure SegState (α : Type) where
  inSpeech : Bool
  silentFrames : Nat
  preRoll : List α
  utterance : List α
  lastAsrSamples : Nat
  deriving Repr, DecidableEq

/-- Embeds `StreamingEvent` of `src/streaming.rs`. -/
inductive SEvent (α : Type) where
  | partialEv (audio : List α)
  | finalEv (audio : List α)
  | resetEv
  deriving Repr, DecidableEq

/-- The segmenter state right after construction (`StreamingSegmenter::new`),
which is also the state produced by `flush_utterance` / `reset_state`. -/
def initState (α : Type) : SegState α :=
  ⟨false, 0, [], [], 0⟩

/-- Embeds `push_pre_roll`: append the frame, then pop from the front while
over capacity; a zero capacity leaves the deque untouched. -/
def pushPreRoll {α : Type} (preRollSamples : Nat) (preRoll frame : List α) :
    List α :=
  if preRollSamples = 0 then preRoll
  else
    let pr := preRoll ++ frame
    pr.drop (pr.length - preRollSamples)

/-- Embeds `StreamingSegmenter::window_audio`: the last
`min(max_window_samples, utterance.len())` samples of the utterance. -/
def windowAudio {α : Type} (cfg : SegCfg) (utterance : List α) : List α :=
  if utterance.isEmpty then []
  else
    let keep := min cfg.maxWindowSamples utterance.length
    utterance.drop (utterance.length - keep)

/-- Embeds one iteration of the frame loop in
`StreamingSegmenter::push_audio` (lines 95–141 of `src/streaming.rs`):
returns the updated state and the events pushed during this iteration. -/
def processFrame {α : Type} (cfg : SegCfg) (s : SegState α) (f : Frame α) :
    SegState α × List (SEvent α) :=
  if s.inSpeech then
    let utt := s.utterance ++ f.samples
    let sf := if f.voiced then 0 else s.silentFrames + 1
    if sf ≥ cfg.endSilenceFrames ∨ utt.length ≥ cfg.maxSegmentSamples then
      if utt.length ≥ cfg.minSpeechSamples then
        (initState α, [SEvent.finalEv utt])
      else
        (initState α, [SEvent.resetEv])
    else if utt.length ≥ cfg.minSpeechSamples ∧
        utt.length - s.lastAsrSamples ≥ cfg.asrStepSamples then
      ({ s with utterance := utt, silentFrames := sf,
                lastAsrSamples := utt.length },
       [SEvent.partialEv (windowAudio cfg utt)])
    else
      ({ s with utterance := utt, silentFrames := sf }, [])
  else
    let pr := pushPreRoll cfg.preRollSamples s.preRoll f.samples
    if f.voiced then
      ({ inSpeech := true, silentFrames := 0, preRoll := [],
         utterance := s.utterance ++ pr, lastAsrSamples := 0 }, [])
    else
      ({ s with preRoll := pr }, [])

/-- The frame loop of `push_audio`: fold `processFrame` over the frames,
concatenating the emitted events in order. -/
def processFrames {α : Type} (cfg : SegCfg) (s : SegState α) :
    List (Frame α) → SegState α × List (SEvent α)
  | [] => (s, [])
  | f :: fs =>
    let r1 := processFrame cfg s f
    let r2 := processFrames cfg r1.1 fs
    (r2.1, r1.2 ++ r2.2)

/-! ## Final-only segmenter (`Segmenter` of `src/audio.rs`)

Used when `streaming` is false; `app.rs` wraps each returned segment in a
`StreamingEvent::Final`.  Note that its termination branch has no
minimum-speech check and its config has no `min_speech` field at all. -/

/-- Derived counts of `Segmenter::new` (`src/audio.rs`). -/
structure FSegCfg where
  endSilenceFrames : Nat
  maxSegmentSamples : Nat
  preRollSamples : Nat
  deriving Repr, DecidableEq

/-- Embeds the mutable state of `Segmenter` (`src/audio.rs`). -/
structure FSegState (α : Type) where
  inSpeech : Bool
  silentFrames : Nat
  preRoll : List α
  current : List α
  deriving Repr, DecidableEq

/-- The state after `Segmenter::new`, also produced by `flush_segment`. -/
def initFState (α : Type) : FSegState α :=
  ⟨false, 0, [], []⟩

/-- Embeds one iteration of the frame loop in `Segmenter::push_audio`
(lines 60–90 of `src/audio.rs`): a terminated segment is flushed with no
minimum-length check. -/
def processFrameFinalOnly {α : Type} (cfg : FSegCfg) (s : FSegState α)
    (f : Frame α) : FSegState α × List (List α) :=
  if s.inSpeech then
    let cur := s.current ++ f.samples
    let sf := if f.voiced then 0 else s.silentFrames + 1
    if sf ≥ cfg.endSilenceFrames ∨ cur.length ≥ cfg.maxSegmentSamples then
      (initFState α, [cur])
    else
      ({ s with current := cur, silentFrames := sf }, [])
  else
    let pr := pushPreRoll cfg.preRollSamples s.preRoll f.samples
    if f.voiced then
      ({ inSpeech := true, silentFrames := 0, preRoll := [],
         current := s.current ++ pr }, [])
    else
      ({ s with preRoll := pr }, [])

/-- The frame loop of the final-only `push_audio`. -/
def processFramesFinalOnly {α : Type} (cfg : FSegCfg) (s : FSegState α) :
    List (Frame α) → FSegState α × List (List α)
  | [] => (s, [])
  | f :: fs =>
    let r1 := processFrameFinalOnly cfg s f
    let r2 := processFramesFinalOnly cfg r1.1 fs
    (r2.1, r1.2 ++ r2.2)

/-! ## Transcription worker final handling (`src/app.rs`) -/

/-- Embeds Rust `str::trim` at the character level: drop whitespace from both
ends. -/
def trimChars (cs : List Char) : List Char :=
  ((cs.dropWhile Char.isWhitespace).reverse.dropWhile Char.isWhitespace).reverse

/-- `str::trim` on the embedded strings. -/
def strTrim (s : String) : String :=
  String.mk (trimChars s.data)

/-- Embeds `CaptionEvent` of `src/app.rs`. -/
inductive CaptionEvent where
  | update (text : String) (isFinal : Bool)
  | clear
  deriving Repr, DecidableEq

/-- The transcription worker's caption-deduplication state
(`last_caption`, `last_final`) together with its `Stabilizer`. -/
structure WorkerState where
  stab : Stabilizer
  lastCaption : String
  lastFinal : Bool
  deriving Repr, DecidableEq

/-- Worker state at thread start (`src/app.rs` lines 203–205). -/
def initWorker (partialStableIters : Nat) : WorkerState :=
  ⟨Stabilizer.new partialStableIters, "", true⟩

/-- Embeds `maybe_send_update` of `src/app.rs`: send the update only when
the `(text, is_final)` pair differs from the last sent one.  The caption
queue's `try_send` is modelled as always succeeding (queue back-pressure is
outside this development). -/
def maybeSendUpdate (ws : WorkerState) (text : String) (isFinal : Bool) :
    WorkerState × List CaptionEvent :=
  if text ≠ ws.lastCaption ∨ isFinal ≠ ws.lastFinal then
    ({ ws with lastCaption := text, lastFinal := isFinal },
     [CaptionEvent.update text isFinal])
  else
    (ws, [])

/-- Embeds the `StreamingEvent::Final` arm of the transcription worker
(`src/app.rs` lines 260–271), given the text the backend returned
successfully: finalize the stabilizer, then send the final caption unless
its trimmed text is empty. -/
def handleFinalText (ws : WorkerState) (text : String) :
    WorkerState × List CaptionEvent :=
  let r := ws.stab.finalize text
  let ws1 := { ws with stab := r.1 }
  if (strTrim r.2).data ≠ [] then
    maybeSendUpdate ws1 r.2 true
  else
    (ws1, [])

/-! ## Shared output language (`SharedOutputLanguage` of `src/app.rs`) -/

/-- Embeds the `OutputLanguage` enum of `src/config.rs` (`repr(u8)`,
`Original = 0`, `English = 1`). -/
inductive OutputLanguage where
  | original
  | english
  deriving Repr, DecidableEq

/-- Embeds `SharedOutputLanguage::set`: the byte stored in the atomic cell
is the enum discriminant (`value as u8`). -/
def olEncode : OutputLanguage → Nat
  | .original => 0
  | .english => 1

/-- Embeds the decoding match in `SharedOutputLanguage::get`: byte 0 maps to
`Original` and every other byte to `English`.  `b` stands for the stored
`u8` value. -/
def olDecode (b : Nat) : OutputLanguage :=
  if b = 0 then .original else .english

/-! ## Invariant predicates used by the proofs -/

/-- `pending_counts` is non-increasing position by position (reading past the
end as 0).  This is the structural fact that makes the commit loop sound. -/
def Anti (l : List Nat) : Prop :=
  ∀ i j : Nat, i ≤ j → l.getD j 0 ≤ l.getD i 0

/-- Invariant of the stabilizer state: counts are non-increasing and all
strictly below the commit threshold. -/
def StabInv (s : Stabilizer) : Prop :=
  Anti s.pending_counts ∧ ∀ c ∈ s.pending_counts, c < s.stable_required

/-- Invariant of the streaming segmenter state used for the utterance bound:
outside speech the utterance is empty, the pre-roll respects its capacity,
and the utterance respects the segment cap. -/
def SegInv {α : Type} (cfg : SegCfg) (s : SegState α) : Prop :=
  (s.inSpeech = false → s.utterance = []) ∧
  s.preRoll.length ≤ cfg.preRollSamples ∧
  s.utterance.length ≤ cfg.maxSegmentSamples

/-- Invariant of the streaming segmenter state for the in-speech claim:
while in speech the utterance is non-empty and the pre-roll is empty. -/
def SpeechInv {α : Type} (s : SegState α) : Prop :=
  s.inSpeech = true → s.utterance ≠ [] ∧ s.preRoll = []


/-! ## Helper lemmas: counts structure -/

theorem getD_map_range_lt (f : Nat → Nat) {n j : Nat} (hj : j < n) :
    ((List.range n).map f).getD j 0 = f j := by
  simp [List.getD_eq_getElem?_getD, List.getElem?_map, List.getElem?_range hj]

theorem getD_map_range_ge (f : Nat → Nat) {n j : Nat} (hj : n ≤ j) :
    ((List.range n).map f).getD j 0 = 0 := by
  rw [List.getD_eq_getElem?_getD, List.getElem?_eq_none] <;>
    simp [hj]

theorem getD_drop (l : List Nat) (k j : Nat) :
    (l.drop k).getD j 0 = l.getD (k + j) 0 := by
  simp [List.getD_eq_getElem?_getD, List.getElem?_drop]

theorem anti_newCounts {old : List Nat} (hold : Anti old) (lcp n : Nat) :
    Anti (newCounts old lcp n) := by
  intro i j hij
  by_cases hj : j < n
  · have hi : i < n := lt_of_le_of_lt hij hj
    rw [newCounts, getD_map_range_lt _ hj, getD_map_range_lt _ hi]
    by_cases hjl : j < lcp
    · have hil : i < lcp := lt_of_le_of_lt hij hjl
      simp only [hjl, hil, if_true]
      exact Nat.succ_le_succ (hold i j hij)
    · simp only [hjl, if_false]
      by_cases hil : i < lcp <;> simp [hil]
  · rw [newCounts, getD_map_range_ge _ (Nat.le_of_not_lt hj)]
    exact Nat.zero_le _

theorem anti_drop {l : List Nat} (h : Anti l) (k : Nat) : Anti (l.drop k) := by
  intro i j hij
  rw [getD_drop, getD_drop]
  exact h _ _ (Nat.add_le_add_left hij k)

theorem anti_mem_le_head {l : List Nat} (h : Anti l) {c : Nat} (hc : c ∈ l) :
    c ≤ l.getD 0 0 := by
  obtain ⟨n, hn, rfl⟩ := List.getElem_of_mem hc
  have : l.getD n 0 = l[n] := by
    simp [List.getD_eq_getElem?_getD, List.getElem?_eq_getElem hn]
  rw [← this]
  exact h 0 n (Nat.zero_le n)

theorem commitLen_head_lt (R : Nat) :
    ∀ cs : List Nat, cs.drop (commitLen R cs) = [] ∨
      (cs.drop (commitLen R cs)).getD 0 0 < R
  | [] => Or.inl rfl
  | c :: cs => by
    by_cases h : R ≤ c
    · simp only [commitLen, h, if_true, List.drop_succ_cons]
      exact commitLen_head_lt R cs
    · simp only [commitLen, h, if_false, List.drop_zero]
      exact Or.inr (by simpa using Nat.lt_of_not_le h)

theorem commitLen_ge (R : Nat) :
    ∀ cs : List Nat, ∀ i < commitLen R cs, R ≤ cs.getD i 0
  | [], i, hi => by simp [commitLen] at hi
  | c :: cs, i, hi => by
    by_cases h : R ≤ c
    · cases i with
      | zero => simpa using h
      | succ i =>
        simp only [commitLen, h, if_true] at hi
        exact commitLen_ge R cs i (Nat.lt_of_succ_lt_succ hi)
    · simp [commitLen, h] at hi

/-! ## Helper lemmas: stabilizer state machine -/

theorem update_of_tokens_nil {s : Stabilizer} {h : String}
    (hnil : tokenize h = []) : (s.update h).1 = s := by
  simp [Stabilizer.update, hnil]

theorem update_of_tokens_ne_nil {s : Stabilizer} {h : String}
    (hne : tokenize h ≠ []) :
    (s.update h).1 =
      { s with
          committed :=
            s.committed ++ (updatePending s h).take (updateCommitLen s h),
          pending_prev := (updatePending s h).drop (updateCommitLen s h),
          pending_counts := (updateCounts s h).drop (updateCommitLen s h) } := by
  simp [Stabilizer.update, hne, updateCommitLen]

theorem updatePending_of_tokens_nil {s : Stabilizer} {h : String}
    (hnil : tokenize h = []) : updatePending s h = [] := by
  simp [updatePending, stripCommittedOverlap, hnil]

theorem update_stable_required (s : Stabilizer) (h : String) :
    (s.update h).1.stable_required = s.stable_required := by
  by_cases hnil : tokenize h = []
  · rw [update_of_tokens_nil hnil]
  · rw [update_of_tokens_ne_nil hnil]

theorem stabInv_new (r : Nat) : StabInv (Stabilizer.new r) := by
  constructor
  · intro i j _
    simp [Stabilizer.new]
  · intro c hc
    simp [Stabilizer.new] at hc

theorem stabInv_update {s : Stabilizer} (hs : StabInv s) (h : String) :
    StabInv (s.update h).1 := by
  by_cases hnil : tokenize h = []
  · rw [update_of_tokens_nil hnil]; exact hs
  · rw [update_of_tokens_ne_nil hnil]
    have hanti : Anti (updateCounts s h) :=
      anti_newCounts hs.1 _ _
    constructor
    · exact anti_drop hanti _
    · intro c hc
      rcases commitLen_head_lt s.stable_required (updateCounts s h) with hd | hd
      · rw [updateCommitLen] at hc
        rw [hd] at hc
        simp at hc
      · have :=
          anti_mem_le_head (anti_drop hanti (updateCommitLen s h)) hc
        exact lt_of_le_of_lt this hd

theorem stabInv_applyUpdates {s : Stabilizer} (hs : StabInv s) :
    ∀ hl : List String, StabInv (applyUpdates s hl) := by
  intro hl
  induction hl generalizing s with
  | nil => exact hs
  | cons h t ih => exact ih (stabInv_update hs h)

theorem applyUpdates_stable_required (s : Stabilizer) :
    ∀ hl : List String,
      (applyUpdates s hl).stable_required = s.stable_required := by
  intro hl
  induction hl generalizing s with
  | nil => rfl
  | cons h t ih =>
    calc (applyUpdates s (h :: t)).stable_required
        = (s.update h).1.stable_required := ih (s.update h).1
      _ = s.stable_required := update_stable_required s h

theorem applyUpdates_append (s : Stabilizer) (l1 l2 : List String) :
    applyUpdates s (l1 ++ l2) = applyUpdates (applyUpdates s l1) l2 := by
  simp [applyUpdates, List.foldl_append]

theorem committed_prefix_update (s : Stabilizer) (h : String) :
    s.committed <+: (s.update h).1.committed := by
  by_cases hnil : tokenize h = []
  · rw [update_of_tokens_nil hnil]
  · rw [update_of_tokens_ne_nil hnil]
    exact List.prefix_append _ _

theorem committed_prefix_applyUpdates (s : Stabilizer) (hl : List String) :
    s.committed <+: (applyUpdates s hl).committed := by
  induction hl generalizing s with
  | nil => exact List.prefix_refl _
  | cons h t ih =>
    exact List.IsPrefix.trans (committed_prefix_update s h) (ih (s.update h).1)

/-! ## Claim C1 -/

/-- C1: Stabilizer commit threshold.  After any sequence of `update` calls
from a fresh stabilizer (no `reset`/`finalize` between), every value stored
in `pending_counts` is strictly less than `stable_required`; and in any
single `update`, the tokens appended to `committed` are exactly the pending
prefix of length `updateCommitLen`, each position of which carries a
consecutive-appearance count of at least `stable_required` — so a token whose
count is below the threshold is never committed. -/
theorem stabilizer_commit_threshold :
    (∀ (r : Nat) (hl : List String) (c : Nat),
        c ∈ (applyUpdates (Stabilizer.new r) hl).pending_counts →
        c < (applyUpdates (Stabilizer.new r) hl).stable_required) ∧
    (∀ (s : Stabilizer) (h : String),
        (s.update h).1.committed
          = s.committed ++ (updatePending s h).take (updateCommitLen s h) ∧
        ∀ i < updateCommitLen s h,
          s.stable_required ≤ (updateCounts s h).getD i 0) := by
  constructor
  · intro r hl c hc
    exact (stabInv_applyUpdates (stabInv_new r) hl).2 c hc
  · intro s h
    constructor
    · by_cases hnil : tokenize h = []
      · rw [update_of_tokens_nil hnil, updatePending_of_tokens_nil hnil]
        simp
      · rw [update_of_tokens_ne_nil hnil]
    · intro i hi
      exact commitLen_ge s.stable_required (updateCounts s h) i hi

/-- C1 witness: a concrete run.  With threshold 2 and hypotheses
`"a b"`, `"a c"`, the surviving pending count 1 is below the threshold 2,
and the committed token `"a"` was committed with count exactly 2. -/
theorem stabilizer_commit_threshold_witness :
    (1 ∈ (applyUpdates (Stabilizer.new 2) ["a b", "a c"]).pending_counts ∧
      1 < (applyUpdates (Stabilizer.new 2) ["a b", "a c"]).stable_required) ∧
    ((0 : Nat) < updateCommitLen (Stabilizer.mk 2 [] ["a"] [1]) "a" ∧
      2 ≤ (updateCounts (Stabilizer.mk 2 [] ["a"] [1]) "a").getD 0 0) :=
  ⟨⟨by decide, stabilizer_commit_threshold.1 2 ["a b", "a c"] 1 (by decide)⟩,
   ⟨by decide,
    (stabilizer_commit_threshold.2 (Stabilizer.mk 2 [] ["a"] [1]) "a").2 0
      (by decide)⟩⟩

/-! ## Claim C4 -/

/-- C4: Stabilizer monotonicity.  For every sequence of `update` calls with
no `reset` or `finalize` between them, the committed token vector after any
call is a prefix of the committed token vector after every later call. -/
theorem committed_prefix_monotone (r : Nat) (hl more : List String) :
    (applyUpdates (Stabilizer.new r) hl).committed <+:
      (applyUpdates (Stabilizer.new r) (hl ++ more)).committed := by
  rw [applyUpdates_append]
  exact committed_prefix_applyUpdates _ more

/-! ## Claim C5 -/

/-- C5 counterexample: the claim says that after updating with an empty (or
whitespace-only) hypothesis `pending_prev` is empty, but the early return in
`Stabilizer::update` leaves the state untouched: after `update "a"` then
`update ""`, `pending_prev` is still `["a"]`. -/
theorem empty_hypothesis_keeps_pending_counterexample :
    tokenize "" = [] ∧
    (((Stabilizer.new 2).update "a").1.update "").1.pending_prev = ["a"] ∧
    (["a"] : List String) ≠ [] := by decide

/-- C5 amended: when the hypothesis tokenizes to a non-empty list, the
algorithm runs to step 6 and `pending_prev` equals the remainder of the
hypothesis's tokens after stripping the committed overlap and removing the
newly committed prefix; when it tokenizes to the empty list, `update`
returns early and leaves the whole state (in particular `pending_prev`)
unchanged. -/
theorem update_pending_prev_characterization (s : Stabilizer) (h : String) :
    (tokenize h ≠ [] →
        (s.update h).1.pending_prev =
          (updatePending s h).drop (updateCommitLen s h)) ∧
    (tokenize h = [] → (s.update h).1 = s) := by
  constructor
  · intro hne
    rw [update_of_tokens_ne_nil hne]
  · intro hnil
    exact update_of_tokens_nil hnil

/-- C5 witness: both branches at concrete inputs.  `update "a b"` on a fresh
threshold-1 stabilizer commits `"a" "b"` immediately and leaves
`pending_prev` empty; `update ""` leaves any state unchanged. -/
theorem update_pending_prev_characterization_witness :
    (tokenize "a b" ≠ [] ∧
      ((Stabilizer.new 1).update "a b").1.pending_prev =
        (updatePending (Stabilizer.new 1) "a b").drop
          (updateCommitLen (Stabilizer.new 1) "a b")) ∧
    (tokenize " " = [] ∧
      ((Stabilizer.mk 2 ["x"] ["y"] [1]).update " ").1 =
        Stabilizer.mk 2 ["x"] ["y"] [1]) :=
  ⟨⟨by decide,
    (update_pending_prev_characterization (Stabilizer.new 1) "a b").1
      (by decide)⟩,
   ⟨by decide,
    (update_pending_prev_characterization
        (Stabilizer.mk 2 ["x"] ["y"] [1]) " ").2 (by decide)⟩⟩

/-! ## Claim C8 -/

/-- C8 counterexample: the claim says a `Final` whose transcribed text has
non-empty trim is always sent, but `maybe_send_update` also suppresses a
caption identical to the last sent one.  After a final caption `"hi"`
(reached from the initial worker state), a second final `"hi"` produces no
caption event even though its trimmed text is non-empty. -/
theorem final_caption_dedup_counterexample :
    (handleFinalText (initWorker 2) "hi").1 =
      WorkerState.mk (Stabilizer.new 2) "hi" true ∧
    (strTrim "hi").data ≠ [] ∧
    (handleFinalText (WorkerState.mk (Stabilizer.new 2) "hi" true) "hi").2
      = [] := by decide

/-- C8 amended: for a `Final` whose transcription succeeds with text `t`, the
worker sends `Update (text, is_final := true)` whenever the finalized text
has non-empty trim AND the pair `(text, true)` differs from the last sent
update (the deduplication in `maybe_send_update`). -/
theorem final_caption_sent_when_new (ws : WorkerState) (t : String)
    (h1 : (strTrim (tokensToText (tokenize t))).data ≠ [])
    (h2 : tokensToText (tokenize t) ≠ ws.lastCaption ∨ ws.lastFinal ≠ true) :
    (handleFinalText ws t).2 =
      [CaptionEvent.update (tokensToText (tokenize t)) true] := by
  rcases h2 with h2 | h2
  · simp [handleFinalText, Stabilizer.finalize, maybeSendUpdate, h1, h2]
  · simp [handleFinalText, Stabilizer.finalize, maybeSendUpdate, h1,
      Ne.symm h2]

/-- C8 witness: from the initial worker state a final `" hi  there "` is
normalized to `"hi there"` and sent as a final caption. -/
theorem final_caption_sent_when_new_witness :
    ((strTrim (tokensToText (tokenize " hi  there "))).data ≠ [] ∧
      (tokensToText (tokenize " hi  there ") ≠ (initWorker 2).lastCaption ∨
        (initWorker 2).lastFinal ≠ true)) ∧
    (handleFinalText (initWorker 2) " hi  there ").2 =
      [CaptionEvent.update (tokensToText (tokenize " hi  there ")) true] :=
  ⟨⟨by decide, by decide⟩,
   final_caption_sent_when_new (initWorker 2) " hi  there "
     (by decide) (by decide)⟩

/-! ## Claim C10 -/

/-- C10: `SharedOutputLanguage` decode is total and round-trips: a stored
byte of 0 decodes to `Original`, every non-zero byte decodes to `English`,
and for both enum variants `set` followed by `get` returns the variant. -/
theorem output_language_roundtrip :
    olDecode 0 = OutputLanguage.original ∧
    (∀ b : Nat, b ≠ 0 → olDecode b = OutputLanguage.english) ∧
    (∀ v : OutputLanguage, olDecode (olEncode v) = v) := by
  refine ⟨rfl, ?_, ?_⟩
  · intro b hb
    simp [olDecode, hb]
  · intro v
    cases v <;> rfl

/-- C10 witness: byte 7 decodes to `English`, and both variants round-trip. -/
theorem output_language_roundtrip_witness :
    ((7 : Nat) ≠ 0 ∧ olDecode 7 = OutputLanguage.english) ∧
    olDecode (olEncode OutputLanguage.original) = OutputLanguage.original ∧
    olDecode (olEncode OutputLanguage.english) = OutputLanguage.english :=
  ⟨⟨by decide, output_language_roundtrip.2.1 7 (by decide)⟩,
   output_language_roundtrip.2.2 OutputLanguage.original,
   output_language_roundtrip.2.2 OutputLanguage.english⟩


/-! ## Helper lemmas: segmenter -/

theorem pushPreRoll_length_le {α : Type} {cap : Nat} {pr : List α}
    (h : pr.length ≤ cap) (fr : List α) :
    (pushPreRoll cap pr fr).length ≤ cap := by
  unfold pushPreRoll
  by_cases hc : cap = 0
  · simpa [hc] using h
  · simp only [hc, if_false, List.length_drop]
    omega

theorem pushPreRoll_ne_nil {α : Type} {cap : Nat} (hcap : 1 ≤ cap)
    (pr : List α) {fr : List α} (hfr : fr ≠ []) :
    pushPreRoll cap pr fr ≠ [] := by
  unfold pushPreRoll
  have hc : ¬ cap = 0 := by omega
  simp only [hc, if_false]
  apply List.ne_nil_of_length_pos
  have hfl : 0 < fr.length := List.length_pos.mpr hfr
  simp only [List.length_drop, List.length_append]
  omega

theorem processFrame_term {α : Type} {cfg : SegCfg} {s : SegState α}
    {f : Frame α} (hin : s.inSpeech = true)
    (hterm : (if f.voiced then 0 else s.silentFrames + 1) ≥
        cfg.endSilenceFrames ∨
      (s.utterance ++ f.samples).length ≥ cfg.maxSegmentSamples) :
    processFrame cfg s f =
      if (s.utterance ++ f.samples).length ≥ cfg.minSpeechSamples then
        (initState α, [SEvent.finalEv (s.utterance ++ f.samples)])
      else (initState α, [SEvent.resetEv]) := by
  simp only [processFrame, hin, if_true, hterm]

theorem processFrame_cont {α : Type} {cfg : SegCfg} {s : SegState α}
    {f : Frame α} (hin : s.inSpeech = true)
    (hterm : ¬ ((if f.voiced then 0 else s.silentFrames + 1) ≥
        cfg.endSilenceFrames ∨
      (s.utterance ++ f.samples).length ≥ cfg.maxSegmentSamples)) :
    processFrame cfg s f =
      if (s.utterance ++ f.samples).length ≥ cfg.minSpeechSamples ∧
          (s.utterance ++ f.samples).length - s.lastAsrSamples ≥
            cfg.asrStepSamples then
        ({ s with
             utterance := s.utterance ++ f.samples,
             silentFrames := if f.voiced then 0 else s.silentFrames + 1,
             lastAsrSamples := (s.utterance ++ f.samples).length },
         [SEvent.partialEv (windowAudio cfg (s.utterance ++ f.samples))])
      else
        ({ s with
             utterance := s.utterance ++ f.samples,
             silentFrames := if f.voiced then 0 else s.silentFrames + 1 },
         []) := by
  simp only [processFrame, hin, if_true, hterm, if_false]

theorem processFrame_onset {α : Type} {cfg : SegCfg} {s : SegState α}
    {f : Frame α} (hin : s.inSpeech = false) (hv : f.voiced = true) :
    processFrame cfg s f =
      ({ inSpeech := true, silentFrames := 0, preRoll := [],
         utterance :=
           s.utterance ++ pushPreRoll cfg.preRollSamples s.preRoll f.samples,
         lastAsrSamples := 0 }, []) := by
  simp only [processFrame, hin, hv, if_true, Bool.false_eq_true, if_false]

theorem processFrame_silent {α : Type} {cfg : SegCfg} {s : SegState α}
    {f : Frame α} (hin : s.inSpeech = false) (hv : f.voiced = false) :
    processFrame cfg s f =
      ({ s with
           preRoll := pushPreRoll cfg.preRollSamples s.preRoll f.samples },
       []) := by
  simp only [processFrame, hin, hv, Bool.false_eq_true, if_false]

theorem segInv_init {α : Type} (cfg : SegCfg) : SegInv cfg (initState α) := by
  refine ⟨fun _ => rfl, ?_, ?_⟩ <;> simp [initState]

theorem bool_eq_false_of_ne_true {b : Bool} (h : ¬ b = true) : b = false := by
  revert h
  cases b <;> simp

theorem segInv_step {α : Type} {cfg : SegCfg} {s : SegState α}
    (hpr : cfg.preRollSamples ≤ cfg.maxSegmentSamples)
    (h : SegInv cfg s) (f : Frame α) :
    SegInv cfg (processFrame cfg s f).1 := by
  obtain ⟨h1, h2, h3⟩ := h
  by_cases hin : s.inSpeech = true
  · by_cases hterm : (if f.voiced then 0 else s.silentFrames + 1) ≥
        cfg.endSilenceFrames ∨
      (s.utterance ++ f.samples).length ≥ cfg.maxSegmentSamples
    · rw [processFrame_term hin hterm]
      split <;> exact segInv_init cfg
    · rw [processFrame_cont hin hterm]
      have hlt : (s.utterance ++ f.samples).length < cfg.maxSegmentSamples := by
        rcases Nat.lt_or_ge (s.utterance ++ f.samples).length
            cfg.maxSegmentSamples with hl | hl
        · exact hl
        · exact absurd (Or.inr hl) hterm
      split
      · exact ⟨fun hf => absurd (hin.symm.trans hf) (by simp), h2,
          Nat.le_of_lt hlt⟩
      · exact ⟨fun hf => absurd (hin.symm.trans hf) (by simp), h2,
          Nat.le_of_lt hlt⟩
  · have hin' : s.inSpeech = false := bool_eq_false_of_ne_true hin
    by_cases hv : f.voiced = true
    · rw [processFrame_onset hin' hv]
      refine ⟨fun hf => absurd hf (by simp), by simp, ?_⟩
      show (s.utterance ++
        pushPreRoll cfg.preRollSamples s.preRoll f.samples).length ≤
          cfg.maxSegmentSamples
      rw [h1 hin', List.nil_append]
      exact Nat.le_trans (pushPreRoll_length_le h2 f.samples) hpr
    · rw [processFrame_silent hin' (bool_eq_false_of_ne_true hv)]
      exact ⟨fun _ => h1 hin', pushPreRoll_length_le h2 f.samples, h3⟩

theorem segInv_run {α : Type} {cfg : SegCfg}
    (hpr : cfg.preRollSamples ≤ cfg.maxSegmentSamples) :
    ∀ (fs : List (Frame α)) (s : SegState α), SegInv cfg s →
      SegInv cfg (processFrames cfg s fs).1
  | [], _, h => h
  | f :: fs, s, h =>
    segInv_run hpr fs (processFrame cfg s f).1 (segInv_step hpr h f)

theorem speechInv_step {α : Type} {cfg : SegCfg} {s : SegState α}
    (hcap : 1 ≤ cfg.preRollSamples) {f : Frame α} (hf : f.samples ≠ [])
    (h : SpeechInv s) : SpeechInv (processFrame cfg s f).1 := by
  by_cases hin : s.inSpeech = true
  · by_cases hterm : (if f.voiced then 0 else s.silentFrames + 1) ≥
        cfg.endSilenceFrames ∨
      (s.utterance ++ f.samples).length ≥ cfg.maxSegmentSamples
    · rw [processFrame_term hin hterm]
      split <;> exact fun hx => absurd hx (by simp [initState])
    · rw [processFrame_cont hin hterm]
      obtain ⟨hu, hp⟩ := h hin
      have hu' : s.utterance ++ f.samples ≠ [] := by simp [hu]
      split
      · exact fun _ => ⟨hu', hp⟩
      · exact fun _ => ⟨hu', hp⟩
  · have hin' : s.inSpeech = false := bool_eq_false_of_ne_true hin
    by_cases hv : f.voiced = true
    · rw [processFrame_onset hin' hv]
      intro _
      refine ⟨?_, rfl⟩
      simp [pushPreRoll_ne_nil hcap s.preRoll hf]
    · rw [processFrame_silent hin' (bool_eq_false_of_ne_true hv)]
      intro hx
      exact absurd (hin'.symm.trans hx) (by simp)

theorem speechInv_run {α : Type} {cfg : SegCfg}
    (hcap : 1 ≤ cfg.preRollSamples) :
    ∀ (fs : List (Frame α)), (∀ f ∈ fs, f.samples ≠ []) →
      ∀ (s : SegState α), SpeechInv s →
        SpeechInv (processFrames cfg s fs).1
  | [], _, _, h => h
  | f :: fs, hf, s, h =>
    speechInv_run hcap fs (fun g hg => hf g (List.mem_cons_of_mem f hg))
      (processFrame cfg s f).1
      (speechInv_step hcap (hf f (List.mem_cons_self f fs)) h)

/-! ## Claim C2 -/

/-- C2 counterexample: the claimed bound fails at the voice-onset iteration
when the pre-roll capacity exceeds the segment cap.  The configuration is
realizable by `StreamingSegmenter::new` with `sample_rate_hz = 50`
(frame = 1 sample), `max_segment_s = 0.02` (1 sample), `pre_roll_s = 0.2`
(10 samples), `vad_end_silence_s = 0.02`, `min_speech_ms = 0`,
`asr_step_ms = 20`, `max_window_s = 0`: one silent frame fills the pre-roll
with 1 sample, and the voiced frame moves 2 pre-rolled samples into the
utterance, exceeding `max_segment_samples = 1` at the end of that
iteration. -/
theorem utterance_bound_counterexample :
    (processFrames (SegCfg.mk 1 1 1 10 1 1) (initState Nat)
        [Frame.mk [0] false, Frame.mk [1] true]).1.utterance.length = 2 ∧
    ¬ ((processFrames (SegCfg.mk 1 1 1 10 1 1) (initState Nat)
        [Frame.mk [0] false, Frame.mk [1] true]).1.utterance.length ≤
      (SegCfg.mk 1 1 1 10 1 1).maxSegmentSamples) := by decide

/-- C2 amended: provided the derived pre-roll capacity does not exceed the
segment cap (`pre_roll_samples ≤ max_segment_samples`, which holds for the
default configuration), `utterance.len() ≤ max_segment_samples` at the end
of every frame iteration of `push_audio`, including the voice-onset
iteration. -/
theorem utterance_le_max_segment_of_preroll_le {α : Type} (cfg : SegCfg)
    (hpr : cfg.preRollSamples ≤ cfg.maxSegmentSamples)
    (fs : List (Frame α)) (n : Nat) :
    (processFrames cfg (initState α) (fs.take n)).1.utterance.length ≤
      cfg.maxSegmentSamples :=
  (segInv_run hpr (fs.take n) (initState α) (segInv_init cfg)).2.2

/-- C2 witness: a concrete two-frame run under the default-shaped
configuration respects the bound. -/
theorem utterance_le_max_segment_of_preroll_le_witness :
    (SegCfg.mk 1 1 10 5 1 10).preRollSamples ≤
      (SegCfg.mk 1 1 10 5 1 10).maxSegmentSamples ∧
    (processFrames (SegCfg.mk 1 1 10 5 1 10) (initState Nat)
        ([Frame.mk [1] true, Frame.mk [2] true].take 2)).1.utterance.length ≤
      (SegCfg.mk 1 1 10 5 1 10).maxSegmentSamples :=
  ⟨by decide,
   utterance_le_max_segment_of_preroll_le (SegCfg.mk 1 1 10 5 1 10)
     (by decide) [Frame.mk [1] true, Frame.mk [2] true] 2⟩

/-! ## Claim C9 -/

/-- C9 counterexample: with `pre_roll_samples = 0` (reachable via
`pre_roll_s = 0`), `push_pre_roll` stores nothing, so at voice onset the
segmenter enters speech with an empty utterance: `in_speech` is true while
`utterance` is empty at the end of that frame iteration. -/
theorem in_speech_empty_utterance_counterexample :
    (processFrames (SegCfg.mk 1 1 10 0 1 10) (initState Nat)
        [Frame.mk [1] true]).1.inSpeech = true ∧
    (processFrames (SegCfg.mk 1 1 10 0 1 10) (initState Nat)
        [Frame.mk [1] true]).1.utterance = [] := by decide

/-- C9 amended: provided the derived pre-roll capacity is at least 1 and
every frame carries at least one sample (`frame_size ≥ 1` holds by
construction), whenever `in_speech` is true at the end of a frame iteration
the utterance is non-empty and the pre-roll is empty. -/
theorem in_speech_invariant_of_preroll_pos {α : Type} (cfg : SegCfg)
    (hcap : 1 ≤ cfg.preRollSamples) (fs : List (Frame α))
    (hf : ∀ f ∈ fs, f.samples ≠ []) (n : Nat)
    (hsp : (processFrames cfg (initState α) (fs.take n)).1.inSpeech = true) :
    (processFrames cfg (initState α) (fs.take n)).1.utterance ≠ [] ∧
    (processFrames cfg (initState α) (fs.take n)).1.preRoll = [] :=
  speechInv_run hcap (fs.take n)
    (fun f hf' => hf f (List.take_subset n fs hf'))
    (initState α) (fun hx => absurd hx (by simp [initState])) hsp

/-- C9 witness: a single voiced frame with positive pre-roll capacity. -/
theorem in_speech_invariant_of_preroll_pos_witness :
    ((1 ≤ (SegCfg.mk 1 1 10 5 1 10).preRollSamples ∧
        (processFrames (SegCfg.mk 1 1 10 5 1 10) (initState Nat)
          ([Frame.mk [1] true].take 1)).1.inSpeech = true) ∧
      (processFrames (SegCfg.mk 1 1 10 5 1 10) (initState Nat)
          ([Frame.mk [1] true].take 1)).1.utterance ≠ [] ∧
      (processFrames (SegCfg.mk 1 1 10 5 1 10) (initState Nat)
          ([Frame.mk [1] true].take 1)).1.preRoll = []) :=
  ⟨⟨by decide, by decide⟩,
   in_speech_invariant_of_preroll_pos (SegCfg.mk 1 1 10 5 1 10) (by decide)
     [Frame.mk [1] true] (by decide) 1 (by decide)⟩

/-! ## Claim C3 -/

/-- C3: in every frame for which `reached_silence` or `reached_max` (or
both) holds, exactly one event is emitted — `Final` of the whole utterance
including the current frame if it reaches `min_speech_samples`, `Reset`
otherwise — and all segmenter state (including `pre_roll`) is reset to the
initial state before the next frame. -/
theorem termination_single_event_resets_state {α : Type} (cfg : SegCfg)
    (s : SegState α) (f : Frame α) (hin : s.inSpeech = true)
    (hterm : (if f.voiced then 0 else s.silentFrames + 1) ≥
        cfg.endSilenceFrames ∨
      (s.utterance ++ f.samples).length ≥ cfg.maxSegmentSamples) :
    (processFrame cfg s f).1 = initState α ∧
    (processFrame cfg s f).2 =
      [if (s.utterance ++ f.samples).length ≥ cfg.minSpeechSamples then
         SEvent.finalEv (s.utterance ++ f.samples)
       else SEvent.resetEv] := by
  rw [processFrame_term hin hterm]
  split <;> exact ⟨rfl, rfl⟩

/-- C3 witness: a silent frame that reaches the silence threshold flushes a
two-sample utterance as a single `Final` event and resets all state. -/
theorem termination_single_event_resets_state_witness :
    (processFrame (SegCfg.mk 1 1 10 5 1 10)
        (SegState.mk true 0 ([] : List Nat) [1] 0)
        (Frame.mk [2] false)).1 = initState Nat ∧
    (processFrame (SegCfg.mk 1 1 10 5 1 10)
        (SegState.mk true 0 ([] : List Nat) [1] 0)
        (Frame.mk [2] false)).2 = [SEvent.finalEv [1, 2]] :=
  have h := termination_single_event_resets_state (SegCfg.mk 1 1 10 5 1 10)
    (SegState.mk true 0 ([] : List Nat) [1] 0) (Frame.mk [2] false)
    rfl (by decide)
  ⟨h.1, h.2.trans (by decide)⟩

/-! ## Claim C6 -/

theorem finalEv_mem_processFrame {α : Type} {cfg : SegCfg} {s : SegState α}
    {f : Frame α} {p : List α}
    (hp : SEvent.finalEv p ∈ (processFrame cfg s f).2) :
    cfg.minSpeechSamples ≤ p.length := by
  by_cases hin : s.inSpeech = true
  · by_cases hterm : (if f.voiced then 0 else s.silentFrames + 1) ≥
        cfg.endSilenceFrames ∨
      (s.utterance ++ f.samples).length ≥ cfg.maxSegmentSamples
    · rw [processFrame_term hin hterm] at hp
      by_cases hmin : (s.utterance ++ f.samples).length ≥
          cfg.minSpeechSamples
      · rw [if_pos hmin] at hp
        simp only [List.mem_singleton, SEvent.finalEv.injEq] at hp
        rw [hp]
        exact hmin
      · rw [if_neg hmin] at hp
        simp at hp
    · rw [processFrame_cont hin hterm] at hp
      split at hp <;> simp at hp
  · have hin' : s.inSpeech = false := bool_eq_false_of_ne_true hin
    by_cases hv : f.voiced = true
    · rw [processFrame_onset hin' hv] at hp
      simp at hp
    · rw [processFrame_silent hin' (bool_eq_false_of_ne_true hv)] at hp
      simp at hp

theorem finalEv_mem_processFrames {α : Type} {cfg : SegCfg} :
    ∀ (fs : List (Frame α)) (s : SegState α) (p : List α),
      SEvent.finalEv p ∈ (processFrames cfg s fs).2 →
      cfg.minSpeechSamples ≤ p.length
  | [], s, p, hp => by simp [processFrames] at hp
  | f :: fs, s, p, hp => by
    simp only [processFrames, List.mem_append] at hp
    rcases hp with h | h
    · exact finalEv_mem_processFrame h
    · exact finalEv_mem_processFrames fs (processFrame cfg s f).1 p h

set_option maxRecDepth 40000 in
/-- C6 counterexample: the final-only `Segmenter` of `src/audio.rs` (used
when `streaming` is false; `app.rs` wraps every returned segment in a
`StreamingEvent::Final`) has no minimum-speech gate.  With the app's fixed
16 kHz rate (320-sample frames), default `pre_roll_s = 0.25` (4000 samples),
default `max_segment_s = 20` (320000 samples) and `vad_end_silence_s = 0.02`
(1 frame), one voiced frame followed by one silent frame flushes a
640-sample segment — far below the default `min_speech_ms = 300`
(4800 samples). -/
theorem final_only_segmenter_short_final_counterexample :
    ((processFramesFinalOnly (FSegCfg.mk 1 320000 4000) (initFState Nat)
        [Frame.mk (List.replicate 320 1) true,
         Frame.mk (List.replicate 320 0) false]).2.map List.length
      = [640]) ∧
    640 < 4800 := by decide

/-- C6 amended: `min_speech_ms` gates `Final` emission in the *streaming*
segmenter — every `Final` payload of `push_audio` has at least
`min_speech_samples` samples — but the final-only segmenter used when
`streaming` is false flushes terminated segments of any length. -/
theorem streaming_final_ge_min_speech {α : Type} (cfg : SegCfg)
    (s : SegState α) (fs : List (Frame α)) (p : List α)
    (hp : SEvent.finalEv p ∈ (processFrames cfg s fs).2) :
    cfg.minSpeechSamples ≤ p.length :=
  finalEv_mem_processFrames fs s p hp

/-- C6 witness: a concrete streaming run emitting one `Final`. -/
theorem streaming_final_ge_min_speech_witness :
    SEvent.finalEv [1, 2] ∈
      (processFrames (SegCfg.mk 1 1 10 5 1 10) (initState Nat)
        [Frame.mk [1] true, Frame.mk [2] false]).2 ∧
    (SegCfg.mk 1 1 10 5 1 10).minSpeechSamples ≤ ([1, 2] : List Nat).length :=
  ⟨by decide,
   streaming_final_ge_min_speech (SegCfg.mk 1 1 10 5 1 10) (initState Nat)
     [Frame.mk [1] true, Frame.mk [2] false] [1, 2] (by decide)⟩

/-! ## Claim C7 -/

theorem windowAudio_eq_drop {α : Type} (cfg : SegCfg) (u : List α) :
    windowAudio cfg u =
      u.drop (u.length - min cfg.maxWindowSamples u.length) := by
  cases u with
  | nil => simp [windowAudio]
  | cons a t =>
    simp only [windowAudio, List.isEmpty_cons, Bool.false_eq_true, if_false]

theorem windowAudio_length_le {α : Type} (cfg : SegCfg) (u : List α) :
    (windowAudio cfg u).length ≤ cfg.maxWindowSamples := by
  rw [windowAudio_eq_drop]
  simp only [List.length_drop]
  omega

theorem windowAudio_of_length_le {α : Type} (cfg : SegCfg) (u : List α)
    (h : u.length ≤ cfg.maxWindowSamples) : windowAudio cfg u = u := by
  rw [windowAudio_eq_drop, Nat.min_eq_right h]
  simp

theorem partialEv_mem_processFrame {α : Type} {cfg : SegCfg}
    {s : SegState α} {f : Frame α} {p : List α}
    (hp : SEvent.partialEv p ∈ (processFrame cfg s f).2) :
    p = windowAudio cfg (processFrame cfg s f).1.utterance ∧
    (processFrame cfg s f).1.utterance.length < cfg.maxSegmentSamples := by
  by_cases hin : s.inSpeech = true
  · by_cases hterm : (if f.voiced then 0 else s.silentFrames + 1) ≥
        cfg.endSilenceFrames ∨
      (s.utterance ++ f.samples).length ≥ cfg.maxSegmentSamples
    · rw [processFrame_term hin hterm] at hp
      split at hp <;> simp at hp
    · have hlt : (s.utterance ++ f.samples).length <
          cfg.maxSegmentSamples := by
        rcases Nat.lt_or_ge (s.utterance ++ f.samples).length
            cfg.maxSegmentSamples with hl | hl
        · exact hl
        · exact absurd (Or.inr hl) hterm
      rw [processFrame_cont hin hterm] at hp ⊢
      split at hp
      next hc =>
        rw [if_pos hc]
        simp only [List.mem_singleton, SEvent.partialEv.injEq] at hp
        exact ⟨hp, hlt⟩
      next hc =>
        simp at hp
  · have hin' : s.inSpeech = false := bool_eq_false_of_ne_true hin
    by_cases hv : f.voiced = true
    · rw [processFrame_onset hin' hv] at hp
      simp at hp
    · rw [processFrame_silent hin' (bool_eq_false_of_ne_true hv)] at hp
      simp at hp

/-- C7: every `Partial` payload equals the last
`min(max_window_samples, utterance.len())` samples of the current utterance,
hence its length is at most `max_window_samples`; when the raw window sample
count is 0 (`max_window_s == 0`), `max_window_samples` is derived equal to
`max_segment_samples`, and whenever `max_window_samples` equals
`max_segment_samples` the `Partial` carries the full utterance. -/
theorem partial_window_payload {α : Type} (cfg : SegCfg) (s : SegState α)
    (f : Frame α) (p : List α) :
    (SEvent.partialEv p ∈ (processFrame cfg s f).2 →
        p = (processFrame cfg s f).1.utterance.drop
            ((processFrame cfg s f).1.utterance.length -
              min cfg.maxWindowSamples
                (processFrame cfg s f).1.utterance.length) ∧
        p.length ≤ cfg.maxWindowSamples ∧
        (cfg.maxWindowSamples = cfg.maxSegmentSamples →
          p = (processFrame cfg s f).1.utterance)) ∧
    (∀ m : Nat, deriveMaxWindowSamples 0 m = m) := by
  constructor
  · intro hp
    obtain ⟨hpw, hlt⟩ := partialEv_mem_processFrame hp
    refine ⟨?_, ?_, ?_⟩
    · rw [hpw, windowAudio_eq_drop]
    · rw [hpw]
      exact windowAudio_length_le cfg _
    · intro hmw
      rw [hpw]
      apply windowAudio_of_length_le
      rw [hmw]
      exact Nat.le_of_lt hlt
  · intro m
    simp [deriveMaxWindowSamples]

/-- C7 witness: a concrete in-speech voiced frame emits a `Partial` whose
payload is the full two-sample utterance; the window derivation maps a raw
count of 0 to the segment cap. -/
theorem partial_window_payload_witness :
    (SEvent.partialEv [1, 2] ∈
        (processFrame (SegCfg.mk 1 1 10 5 1 10)
          (SegState.mk true 0 ([] : List Nat) [1] 0)
          (Frame.mk [2] true)).2) ∧
    ([1, 2] : List Nat).length ≤ (SegCfg.mk 1 1 10 5 1 10).maxWindowSamples ∧
    deriveMaxWindowSamples 0 7 = 7 :=
  have h := partial_window_payload (SegCfg.mk 1 1 10 5 1 10)
    (SegState.mk true 0 ([] : List Nat) [1] 0) (Frame.mk [2] true) [1, 2]
  ⟨by decide, (h.1 (by decide)).2.1, h.2 7⟩
